import Mathlib

/-!
Verification of the version-resolution and upgrade engine of the `tim`
tmux-plugin manager (github.com/kjnsn/tim).

The development shallowly embeds the Go sources:
  * `lib/version.go` (`Version` interface, `SemanticVersion`, `GitVersion`,
    `VersionFromSpec`, `FindBestVersion`, `maxVersion`, `Check`, `HasUpgrade`,
    `GitRef`),
  * `lib/plugin.go` (`Plugin.Install`, `Plugin.CheckInstalled`),
  * `cmd/upgrade.go` (the concurrent upgrade-all fan-out),
together with the external semantic-version library `golang.org/x/mod/semver`
(functions `parse`, `parseInt`, `parsePrerelease`, `parseBuild`, `isIdentChar`,
`isNum`, `isBadNum`, `IsValid`, `Compare`, `compareInt`, `comparePrerelease`,
`nextIdent`) on whose behaviour the repository's comparisons rest.

Go strings are modelled as Lean `String`/`List Char`; all strings the
comparison functions actually distinguish are ASCII, where Go's byte-wise
operations coincide with the character-wise operations used here.  Functions
that talk to git through `RunGitCommand` are modelled as pure functions of the
(trimmed) textual output of the git commands they issue.
-/

namespace Tim

/-! ### The semver library, golang.org/x/mod/semver

Faithful model of the library's internal parser and comparison.  `parsed.short`
and the build suffix are not stored, because `Compare` never reads them; the
build suffix is still validated exactly as the library does. -/

/-- `isIdentChar` from x/mod/semver: ASCII letters, digits and `-`. -/
def isIdentChar (c : Char) : Bool :=
  c.isAlpha || c.isDigit || c == '-'

/-- `isNum` from x/mod/semver: the ident consists only of digits. -/
def isNum (v : List Char) : Bool :=
  v.all Char.isDigit

/-- `isBadNum` from x/mod/semver: all digits, more than one of them, leading zero. -/
def isBadNum (v : List Char) : Bool :=
  v.all Char.isDigit && decide (1 < v.length) && v.head? == some '0'

/-- Go's byte-wise string comparison `x < y`, character-wise on `List Char`. -/
def ltList : List Char → List Char → Bool
  | [], [] => false
  | [], _ :: _ => true
  | _ :: _, [] => false
  | a :: as, b :: bs => if a < b then true else if b < a then false else ltList as bs

/-- `compareInt` from x/mod/semver: equal strings are equal, otherwise shorter
is smaller, otherwise plain lexicographic order decides. -/
def compareInt (x y : List Char) : Ordering :=
  if x = y then .eq
  else if x.length < y.length then .lt
  else if y.length < x.length then .gt
  else if ltList x y then .lt else .gt

/-- The ident comparison performed inline by `comparePrerelease` when two
idents differ: numeric idents sort before alphanumeric ones, numeric idents
sort by length then lexicographically, alphanumeric ones lexicographically. -/
def identCmp (dx dy : List Char) : Ordering :=
  if dx = dy then .eq
  else if isNum dx ≠ isNum dy then (if isNum dx then .lt else .gt)
  else if isNum dx && decide (dx.length < dy.length) then .lt
  else if isNum dx && decide (dy.length < dx.length) then .gt
  else if ltList dx dy then .lt else .gt

/-- A list is split at every occurrence of `sep`; the library's `nextIdent`
walks exactly these segments (with `sep` being `.`): see `splitSep_nil_case`
and `splitSep_cons_case` for the segment-by-segment reading. -/
def splitSep (sep : Char) : List Char → List (List Char)
  | [] => [[]]
  | c :: rest =>
    if c = sep then [] :: splitSep sep rest
    else
      match splitSep sep rest with
      | [] => [[c]]
      | s :: ss => (c :: s) :: ss

/-- The loop of `comparePrerelease` from x/mod/semver.  Each iteration drops
the separator (`-` on entry, `.` afterwards), reads one ident on both sides
with `nextIdent`, and either decides by `identCmp` or continues; when one side
runs out it is the smaller one. -/
def comparePreLoop : List Char → List Char → Ordering
  | [], _ => .lt
  | _ :: _, [] => .gt
  | _ :: xs, _ :: ys =>
    let dx := xs.takeWhile (· ≠ '.')
    let dy := ys.takeWhile (· ≠ '.')
    if dx = dy then comparePreLoop (xs.dropWhile (· ≠ '.')) (ys.dropWhile (· ≠ '.'))
    else identCmp dx dy
termination_by x _ => x.length
decreasing_by
  have hle : (xs.dropWhile (· ≠ '.')).length ≤ xs.length := (List.dropWhile_sublist _).length_le
  simp only [List.length_cons]
  omega

/-- `comparePrerelease` from x/mod/semver: an absent prerelease (the empty
string) sorts above every prerelease; otherwise the ident loop decides. -/
def comparePrerelease (x y : List Char) : Ordering :=
  if x = y then .eq
  else if x = [] then .gt
  else if y = [] then .lt
  else comparePreLoop x y

/-- `parseInt` from x/mod/semver: a non-empty run of digits without a leading
zero (unless it is exactly `0`), returned with the unconsumed rest. -/
def parseInt (v : List Char) : Option (List Char × List Char) :=
  match v with
  | [] => none
  | c :: _ =>
    if c.isDigit then
      let t := v.takeWhile Char.isDigit
      if c = '0' ∧ t.length ≠ 1 then none
      else some (t, v.dropWhile Char.isDigit)
    else none

/-- Rebuilds a dot-separated ident sequence; inverse of `splitSep '.'`. -/
def joinDots : List (List Char) → List Char
  | [] => []
  | [s] => s
  | s :: rest => s ++ '.' :: joinDots rest

/-- The segment scan of `parsePrerelease` from x/mod/semver: dot-separated
idents of `isIdentChar` characters, each non-empty and not a numeric ident
with a leading zero; scanning stops at `+` (the build suffix) or at the end,
and any other non-ident character is rejected. -/
def segsParse (v : List Char) : Option (List (List Char) × List Char) :=
  let seg := v.takeWhile isIdentChar
  if seg.isEmpty || isBadNum seg then none
  else
    match h : v.dropWhile isIdentChar with
    | [] => some ([seg], [])
    | '.' :: r2 =>
      match segsParse r2 with
      | none => none
      | some (segs, rr) => some (seg :: segs, rr)
    | '+' :: rest => some ([seg], '+' :: rest)
    | _ => none
termination_by v.length
decreasing_by
  have hle : (v.dropWhile isIdentChar).length ≤ v.length := (List.dropWhile_sublist _).length_le
  rw [h] at hle
  simp only [List.length_cons] at hle
  omega

/-- `parsePrerelease` from x/mod/semver: requires the leading `-`, then the
segment scan; the consumed token (dash included) is the prerelease. -/
def preParse (v : List Char) : Option (List Char × List Char) :=
  match v with
  | '-' :: pr =>
    match segsParse pr with
    | none => none
    | some (segs, rr) => some ('-' :: joinDots segs, rr)
  | _ => some ([], v)

/-- The segment scan of `parseBuild` from x/mod/semver: dot-separated
non-empty idents, leading zeros allowed, running to the end of the string. -/
def buildOk (v : List Char) : Bool :=
  let seg := v.takeWhile isIdentChar
  match h : v.dropWhile isIdentChar with
  | [] => !seg.isEmpty
  | '.' :: r2 => !seg.isEmpty && buildOk r2
  | _ => false
termination_by v.length
decreasing_by
  have hle : (v.dropWhile isIdentChar).length ≤ v.length := (List.dropWhile_sublist _).length_le
  rw [h] at hle
  simp only [List.length_cons] at hle
  omega

/-- The components of a parsed semantic version that `Compare` reads
(`parsed.short` and the build suffix are write-only in the library). -/
structure SemParsed where
  major : List Char
  minor : List Char
  patch : List Char
  prerelease : List Char
deriving DecidableEq

/-- `parse` from x/mod/semver: `v` + major, optional `.minor`, optional
`.patch`, optional `-prerelease`, optional `+build`, nothing trailing.
Missing minor/patch default to `0`. -/
def parse (v : List Char) : Option SemParsed :=
  match v with
  | 'v' :: rest =>
    match parseInt rest with
    | none => none
    | some (major, r1) =>
      match r1 with
      | [] => some ⟨major, ['0'], ['0'], []⟩
      | '.' :: r2 =>
        match parseInt r2 with
        | none => none
        | some (minor, r3) =>
          match r3 with
          | [] => some ⟨major, minor, ['0'], []⟩
          | '.' :: r4 =>
            match parseInt r4 with
            | none => none
            | some (patch, r5) =>
              match preParse r5 with
              | none => none
              | some (pre, r6) =>
                match r6 with
                | [] => some ⟨major, minor, patch, pre⟩
                | '+' :: br => if buildOk br then some ⟨major, minor, patch, pre⟩ else none
                | _ => none
          | _ => none
      | _ => none
  | _ => none

/-- Comparison of two successfully parsed versions: major, then minor, then
patch (each by `compareInt`), then the prerelease. -/
def parsedCompare (p q : SemParsed) : Ordering :=
  (compareInt p.major q.major).then
    ((compareInt p.minor q.minor).then
      ((compareInt p.patch q.patch).then
        (comparePrerelease p.prerelease q.prerelease)))

/-- `semver.IsValid` on character lists. -/
def isValidChars (v : List Char) : Bool :=
  (parse v).isSome

/-- `semver.Compare` on character lists: two invalid versions are equal, an
invalid version sorts below any valid one. -/
def semverCompare (v w : List Char) : Ordering :=
  match parse v, parse w with
  | none, none => .eq
  | none, some _ => .lt
  | some _, none => .gt
  | some p, some q => parsedCompare p q

/-- `semver.IsValid`. -/
def IsValid (s : String) : Bool :=
  isValidChars s.data

/-- `semver.Compare`; the library's `-1 / 0 / +1` become `lt / eq / gt`. -/
def Compare (s t : String) : Ordering :=
  semverCompare s.data t.data

/-! ### lib/version.go -/

/-- `maxVersion` from lib/version.go: `slices.MaxFunc` over `semver.Compare`,
keeping the running element unless a later one compares strictly greater;
the empty slice yields the empty string. -/
def maxVersion (versions : List String) : String :=
  match versions with
  | [] => ""
  | m :: rest => rest.foldl (fun m x => if Compare x m = .gt then x else m) m

/-- The `SemanticVersion` struct from lib/version.go. -/
structure SemanticVersion where
  currentVersion : String
  latestVersion : String
deriving DecidableEq

/-- The `GitVersion` struct from lib/version.go. -/
structure GitVersion where
  currentHash : String
  branch : String
  latestHash : String
deriving DecidableEq

/-- The `Version` interface of lib/version.go, closed over its two
implementations `*SemanticVersion` and `*GitVersion`. -/
inductive Version where
  | semantic (sv : SemanticVersion)
  | git (gv : GitVersion)
deriving DecidableEq

/-- `VersionFromSpec` from lib/version.go: a spec that is a valid semantic
version (as given, or after prepending `v`) becomes a `SemanticVersion`;
anything else becomes a `GitVersion` whose branch is the spec itself. -/
def VersionFromSpec (spec : String) : Version :=
  if IsValid spec then .semantic ⟨spec, ""⟩
  else if IsValid ("v" ++ spec) then .semantic ⟨"v" ++ spec, ""⟩
  else .git ⟨"", spec, ""⟩

/-- `GitRef` of both variants: the semantic version text, or the branch name
(hashes are never part of the ref). -/
def Version.GitRef : Version → String
  | .semantic sv => sv.currentVersion
  | .git gv => gv.branch

/-- `SemanticVersion.HasUpgrade` from lib/version.go: an upgrade exists iff a
`latestVersion` was recorded and compares strictly greater than
`currentVersion`; the returned fresh value holds it as `currentVersion`.
The Go receiver is read, never written: the model is a pure function. -/
def SemanticVersion.HasUpgrade (sv : SemanticVersion) : Option Version :=
  if sv.latestVersion ≠ "" ∧ Compare sv.latestVersion sv.currentVersion = .gt then
    some (.semantic ⟨sv.latestVersion, ""⟩)
  else none

/-- `GitVersion.HasUpgrade` from lib/version.go: an upgrade exists iff both
hashes are known and differ; the returned fresh value carries `latestHash` as
its `currentHash` and keeps the branch. -/
def GitVersion.HasUpgrade (gv : GitVersion) : Option Version :=
  if gv.currentHash ≠ "" ∧ gv.latestHash ≠ "" ∧ gv.currentHash ≠ gv.latestHash then
    some (.git ⟨gv.latestHash, gv.branch, ""⟩)
  else none

/-- The outcome of `SemanticVersion.Check`: either the `ErrNoVersions` error
or the updated receiver. -/
inductive CheckResult where
  | errNoVersions
  | ok (sv : SemanticVersion)
deriving DecidableEq

/-- Splitting on newlines, `strings.Split(s, "\n")` from the Go standard
library, applied by `Check` and `FindBestVersion` to the trimmed output of
`git tag --list v*`. -/
def splitLines (s : String) : List String :=
  (splitSep '\n' s.data).map fun l => String.mk l

/-- `SemanticVersion.Check` from lib/version.go as a function of the `git tag`
output (the fetch itself is I/O and can only fail, which propagates): the
maximum of the listed tags becomes `latestVersion` unconditionally — the
source assigns `sv.latestVersion = latest` before its comparison, and the
conditional re-assignment inside `if semver.Compare(latest, ...) == 1` stores
the same value — and the empty maximum is the `ErrNoVersions` failure. -/
def SemanticVersion.Check (sv : SemanticVersion) (tagOutput : String) : CheckResult :=
  let latest := maxVersion (splitLines tagOutput)
  if latest = "" then .errNoVersions
  else .ok ⟨sv.currentVersion, latest⟩

/-- `FindBestVersion` from lib/version.go as a function of the outputs of the
git commands it runs: prefer the highest listed semantic-version tag, fall
back to the default branch with its current short hash. -/
def FindBestVersion (tagOutput defaultBranch currentHash : String) : Version :=
  let highestSemver := maxVersion (splitLines tagOutput)
  if highestSemver ≠ "" then .semantic ⟨highestSemver, ""⟩
  else .git ⟨currentHash, defaultBranch, ""⟩

/-! ### lib/plugin.go -/

/-- The version that `Plugin.Install` of lib/plugin.go resolves, checks out
and stores on the plugin, as a function of its `versionSpec` argument and of
the git outputs consumed by `FindBestVersion`.  The source never reads
`versionSpec`: after cloning it unconditionally assigns
`p.Version = FindBestVersion(pluginDir)` and checks that out. -/
def installVersion (versionSpec : String) (tagOutput defaultBranch currentHash : String) :
    Version :=
  FindBestVersion tagOutput defaultBranch currentHash

/-- The three outcomes of `os.Stat` that `Plugin.CheckInstalled` branches on:
success (with the directory bit of the `FileInfo`), a not-exist error, or any
other error (for which Go returns a nil `FileInfo`). -/
inductive StatResult where
  | found (isDir : Bool)
  | notExist
  | statError (msg : String)
deriving DecidableEq

/-- What a call of `Plugin.CheckInstalled` does: return nil, return
`ErrPluginNotInstalled`, return another error, or panic. -/
inductive CheckInstalledOutcome where
  | ok
  | errNotInstalled
  | errOther (msg : String)
  | panicked
deriving DecidableEq

/-- `Plugin.CheckInstalled` from lib/plugin.go as a function of the stat
outcome.  `os.IsNotExist(err) || !fsInfo.IsDir()` short-circuits: a not-exist
error returns `ErrPluginNotInstalled` before `fsInfo` is touched, but any
other stat error reaches `fsInfo.IsDir()` with `fsInfo` nil, a nil-interface
method call that panics at runtime, so the trailing `return err` is
unreachable. -/
def CheckInstalled : StatResult → CheckInstalledOutcome
  | .notExist => .errNotInstalled
  | .found isDir => if !isDir then .errNotInstalled else .ok
  | .statError _ => .panicked

/-! ### Order-theoretic facts about the comparison helpers -/

theorem ltList_irrefl (a : List Char) : ltList a a = false := by
  induction a with
  | nil => rfl
  | cons x as ih => simp [ltList, lt_irrefl, ih]

theorem ltList_cons_iff {x y : Char} {as bs : List Char} :
    ltList (x :: as) (y :: bs) = true ↔ x < y ∨ (x = y ∧ ltList as bs = true) := by
  simp only [ltList]
  by_cases hxy : x < y
  · simp [hxy]
  · by_cases hyx : y < x
    · have hne : x ≠ y := fun h => absurd (h ▸ hyx) (lt_irrefl x)
      simp [hxy, hyx, hne]
    · have heq : x = y := le_antisymm (not_lt.mp hyx) (not_lt.mp hxy)
      simp [hxy, hyx, heq]

theorem ltList_trans : ∀ {a b c : List Char},
    ltList a b = true → ltList b c = true → ltList a c = true := by
  intro a
  induction a with
  | nil =>
    intro b c h1 h2
    cases b with
    | nil => simp [ltList] at h1
    | cons y bs =>
      cases c with
      | nil => simp [ltList] at h2
      | cons z cs => simp [ltList]
  | cons x as ih =>
    intro b c h1 h2
    cases b with
    | nil => simp [ltList] at h1
    | cons y bs =>
      cases c with
      | nil => simp [ltList] at h2
      | cons z cs =>
        apply ltList_cons_iff.mpr
        rcases ltList_cons_iff.mp h1 with hxy | ⟨hxy, hab⟩
        · rcases ltList_cons_iff.mp h2 with hyz | ⟨hyz, hbc⟩
          · exact Or.inl (lt_trans hxy hyz)
          · exact Or.inl (hyz ▸ hxy)
        · rcases ltList_cons_iff.mp h2 with hyz | ⟨hyz, hbc⟩
          · exact Or.inl (hxy ▸ hyz)
          · exact Or.inr ⟨hxy.trans hyz, ih hab hbc⟩

theorem ltList_asymm {a b : List Char} (h : ltList a b = true) : ltList b a = false := by
  by_contra hc
  have hba : ltList b a = true := by
    cases hab : ltList b a
    · exact absurd hab hc
    · rfl
  have := ltList_trans h hba
  rw [ltList_irrefl] at this
  exact Bool.false_ne_true this

theorem ltList_connex : ∀ {a b : List Char},
    a ≠ b → ltList a b = true ∨ ltList b a = true := by
  intro a
  induction a with
  | nil =>
    intro b hne
    cases b with
    | nil => exact absurd rfl hne
    | cons y bs => left; simp [ltList]
  | cons x as ih =>
    intro b hne
    cases b with
    | nil => right; simp [ltList]
    | cons y bs =>
      by_cases hxy : x < y
      · left; simp [ltList, hxy]
      · by_cases hyx : y < x
        · right; simp [ltList, hyx]
        · have hxy' : x = y := le_antisymm (not_lt.mp hyx) (not_lt.mp hxy)
          have hasbs : as ≠ bs := by
            intro hh
            exact hne (by rw [hxy', hh])
          rcases ih hasbs with h | h
          · exact Or.inl (ltList_cons_iff.mpr (Or.inr ⟨hxy', h⟩))
          · exact Or.inr (ltList_cons_iff.mpr (Or.inr ⟨hxy'.symm, h⟩))

theorem compareInt_eq_iff {x y : List Char} : compareInt x y = .eq ↔ x = y := by
  constructor
  · intro h
    by_contra hne
    simp only [compareInt, if_neg hne] at h
    by_cases h1 : x.length < y.length
    · simp [h1] at h
    · by_cases h2 : y.length < x.length
      · simp [h1, h2] at h
      · by_cases h3 : ltList x y
        · simp [h1, h2, h3] at h
        · simp [h1, h2, h3] at h
  · intro h
    simp [compareInt, h]

theorem compareInt_refl (x : List Char) : compareInt x x = .eq :=
  compareInt_eq_iff.mpr rfl

theorem compareInt_swap (x y : List Char) : compareInt x y = (compareInt y x).swap := by
  by_cases hxy : x = y
  · simp [hxy, compareInt_refl, Ordering.swap]
  · have hyx : y ≠ x := fun h => hxy h.symm
    simp only [compareInt, if_neg hxy, if_neg hyx]
    by_cases h1 : x.length < y.length
    · simp [h1, Nat.lt_asymm h1, Ordering.swap]
    · by_cases h2 : y.length < x.length
      · simp [h1, h2, Ordering.swap]
      · rcases ltList_connex hxy with h3 | h3
        · simp [h1, h2, h3, ltList_asymm h3, Ordering.swap]
        · simp [h1, h2, h3, ltList_asymm h3, Ordering.swap]

theorem compareInt_lt_trans {x y z : List Char}
    (h1 : compareInt x y = .lt) (h2 : compareInt y z = .lt) : compareInt x z = .lt := by
  have hxy : x ≠ y := by
    intro h; rw [h, compareInt_refl] at h1; exact absurd h1 (by simp)
  have hyz : y ≠ z := by
    intro h; rw [h, compareInt_refl] at h2; exact absurd h2 (by simp)
  simp only [compareInt, if_neg hxy, if_neg hyz] at h1 h2
  have hd1 : x.length < y.length ∨ (x.length = y.length ∧ ltList x y = true) := by
    by_cases ha : x.length < y.length
    · exact Or.inl ha
    · by_cases hb : y.length < x.length
      · simp [ha, hb] at h1
      · by_cases hc : ltList x y
        · exact Or.inr ⟨Nat.le_antisymm (not_lt.mp ha) (not_lt.mp hb) |>.symm ▸ rfl, hc⟩
        · simp [ha, hb, hc] at h1
  have hd2 : y.length < z.length ∨ (y.length = z.length ∧ ltList y z = true) := by
    by_cases ha : y.length < z.length
    · exact Or.inl ha
    · by_cases hb : z.length < y.length
      · simp [ha, hb] at h2
      · by_cases hc : ltList y z
        · exact Or.inr ⟨Nat.le_antisymm (not_lt.mp ha) (not_lt.mp hb) |>.symm ▸ rfl, hc⟩
        · simp [ha, hb, hc] at h2
  rcases hd1 with hlen1 | ⟨heq1, hlt1⟩
  · rcases hd2 with hlen2 | ⟨heq2, hlt2⟩
    · have hlz : x.length < z.length := Nat.lt_trans hlen1 hlen2
      have hxz : x ≠ z := by intro h; rw [h] at hlz; exact Nat.lt_irrefl _ hlz
      simp [compareInt, hxz, hlz]
    · have hlz : x.length < z.length := heq2 ▸ hlen1
      have hxz : x ≠ z := by intro h; rw [h] at hlz; exact Nat.lt_irrefl _ hlz
      simp [compareInt, hxz, hlz]
  · rcases hd2 with hlen2 | ⟨heq2, hlt2⟩
    · have hlz : x.length < z.length := heq1 ▸ hlen2
      have hxz : x ≠ z := by intro h; rw [h] at hlz; exact Nat.lt_irrefl _ hlz
      simp [compareInt, hxz, hlz]
    · have hlz : x.length = z.length := heq1.trans heq2
      have hlt : ltList x z = true := ltList_trans hlt1 hlt2
      have hxz : x ≠ z := by
        intro h; rw [h, ltList_irrefl] at hlt; exact Bool.false_ne_true hlt
      simp [compareInt, hxz, hlz, Nat.lt_irrefl, hlt]

/-- `compareInt` can only answer `eq` on equal strings, so a non-`gt` answer
on distinct strings is `lt`. -/
theorem compareInt_ne_gt {x y : List Char} (h : compareInt x y ≠ .gt) :
    x = y ∨ compareInt x y = .lt := by
  cases hc : compareInt x y with
  | eq => exact Or.inl (compareInt_eq_iff.mp hc)
  | lt => exact Or.inr rfl
  | gt => exact absurd hc h

theorem identCmp_eq_iff {a b : List Char} : identCmp a b = .eq ↔ a = b := by
  constructor
  · intro h
    by_contra hne
    simp only [identCmp, if_neg hne] at h
    by_cases h1 : isNum a ≠ isNum b
    · by_cases h2 : isNum a <;> simp [h1, h2] at h
    · by_cases h3 : isNum a && decide (a.length < b.length)
      · simp [h1, h3] at h
      · by_cases h4 : isNum a && decide (b.length < a.length)
        · simp [h1, h3, h4] at h
        · by_cases h5 : ltList a b <;> simp [h1, h3, h4, h5] at h
  · intro h
    simp [identCmp, h]

theorem identCmp_refl (a : List Char) : identCmp a a = .eq :=
  identCmp_eq_iff.mpr rfl

theorem identCmp_swap (a b : List Char) : identCmp a b = (identCmp b a).swap := by
  by_cases hab : a = b
  · simp [hab, identCmp_refl, Ordering.swap]
  · have hba : b ≠ a := fun h => hab h.symm
    simp only [identCmp, if_neg hab, if_neg hba]
    by_cases h1 : isNum a ≠ isNum b
    · have h1' : isNum b ≠ isNum a := fun h => h1 h.symm
      by_cases h2 : isNum a
      · have h3 : ¬ (isNum b = true) := by
          intro hb; exact h1 (h2.trans hb.symm)
        simp [h1, h1', h2, h3, Ordering.swap]
      · have h3 : isNum b = true := by
          cases hb : isNum b
          · exact absurd (by rw [hb]; cases ha : isNum a; rfl; exact absurd ha h2) h1
          · rfl
        simp [h1, h1', h2, h3, Ordering.swap]
    · have heqn : isNum a = isNum b := not_ne_iff.mp h1
      have h1' : ¬ isNum b ≠ isNum a := not_ne_iff.mpr heqn.symm
      simp only [if_neg h1, if_neg h1']
      by_cases hn : isNum a
      · by_cases hl1 : a.length < b.length
        · simp [hn, heqn ▸ hn, hl1, Nat.lt_asymm hl1, Ordering.swap]
        · by_cases hl2 : b.length < a.length
          · simp [hn, heqn ▸ hn, hl1, hl2, Ordering.swap]
          · rcases ltList_connex hab with h3 | h3
            · simp [hn, heqn ▸ hn, hl1, hl2, h3, ltList_asymm h3, Ordering.swap]
            · simp [hn, heqn ▸ hn, hl1, hl2, h3, ltList_asymm h3, Ordering.swap]
      · have hnb : ¬ (isNum b = true) := fun h => hn (heqn ▸ h)
        rcases ltList_connex hab with h3 | h3
        · simp [hn, hnb, h3, ltList_asymm h3, Ordering.swap]
        · simp [hn, hnb, h3, ltList_asymm h3, Ordering.swap]

/-- What `identCmp a b = .lt` means on distinct idents. -/
theorem identCmp_lt_iff {a b : List Char} (hne : a ≠ b) :
    identCmp a b = .lt ↔
      (isNum a = true ∧ isNum b = false) ∨
      (isNum a = true ∧ isNum b = true ∧ a.length < b.length) ∨
      (isNum a = true ∧ isNum b = true ∧ a.length = b.length ∧ ltList a b = true) ∨
      (isNum a = false ∧ isNum b = false ∧ ltList a b = true) := by
  simp only [identCmp, if_neg hne]
  cases ha : isNum a <;> cases hb : isNum b
  · by_cases h5 : ltList a b <;> simp [h5]
  · simp
  · simp
  · by_cases hl1 : a.length < b.length
    · simp [hl1, Nat.lt_asymm hl1, Nat.ne_of_lt hl1]
    · by_cases hl2 : b.length < a.length
      · simp [hl1, hl2, Nat.ne_of_lt' hl2]
      · have hll : a.length = b.length := Nat.le_antisymm (not_lt.mp hl2) (not_lt.mp hl1)
        by_cases h5 : ltList a b <;> simp [hl1, hl2, hll, h5]

theorem identCmp_lt_trans {a b c : List Char}
    (h1 : identCmp a b = .lt) (h2 : identCmp b c = .lt) : identCmp a c = .lt := by
  have hab : a ≠ b := by
    intro h; rw [h, identCmp_refl] at h1; exact absurd h1 (by simp)
  have hbc : b ≠ c := by
    intro h; rw [h, identCmp_refl] at h2; exact absurd h2 (by simp)
  have hac : a ≠ c := by
    intro h
    rw [identCmp_swap] at h2
    rw [← h] at h2
    rw [h1] at h2
    exact absurd h2 (by simp [Ordering.swap])
  apply (identCmp_lt_iff hac).mpr
  rcases (identCmp_lt_iff hab).mp h1 with ⟨hna, hnb⟩ | ⟨hna, hnb, hl⟩ |
    ⟨hna, hnb, hl, hlt⟩ | ⟨hna, hnb, hlt⟩
  · rcases (identCmp_lt_iff hbc).mp h2 with ⟨hnb', hnc⟩ | ⟨hnb', hnc, hl'⟩ |
      ⟨hnb', hnc, hl', hlt'⟩ | ⟨hnb', hnc, hlt'⟩
    · exact Bool.noConfusion (hnb'.symm.trans hnb)
    · exact Bool.noConfusion (hnb'.symm.trans hnb)
    · exact Bool.noConfusion (hnb'.symm.trans hnb)
    · exact Or.inl ⟨hna, hnc⟩
  · rcases (identCmp_lt_iff hbc).mp h2 with ⟨hnb', hnc⟩ | ⟨hnb', hnc, hl'⟩ |
      ⟨hnb', hnc, hl', hlt'⟩ | ⟨hnb', hnc, hlt'⟩
    · exact Or.inl ⟨hna, hnc⟩
    · exact Or.inr (Or.inl ⟨hna, hnc, Nat.lt_trans hl hl'⟩)
    · exact Or.inr (Or.inl ⟨hna, hnc, by omega⟩)
    · exact Bool.noConfusion (hnb.symm.trans hnb')
  · rcases (identCmp_lt_iff hbc).mp h2 with ⟨hnb', hnc⟩ | ⟨hnb', hnc, hl'⟩ |
      ⟨hnb', hnc, hl', hlt'⟩ | ⟨hnb', hnc, hlt'⟩
    · exact Or.inl ⟨hna, hnc⟩
    · exact Or.inr (Or.inl ⟨hna, hnc, by omega⟩)
    · exact Or.inr (Or.inr (Or.inl ⟨hna, hnc, by omega, ltList_trans hlt hlt'⟩))
    · exact Bool.noConfusion (hnb.symm.trans hnb')
  · rcases (identCmp_lt_iff hbc).mp h2 with ⟨hnb', hnc⟩ | ⟨hnb', hnc, hl'⟩ |
      ⟨hnb', hnc, hl', hlt'⟩ | ⟨hnb', hnc, hlt'⟩
    · exact Bool.noConfusion (hnb'.symm.trans hnb)
    · exact Bool.noConfusion (hnb'.symm.trans hnb)
    · exact Bool.noConfusion (hnb'.symm.trans hnb)
    · exact Or.inr (Or.inr (Or.inr ⟨hna, hnc, ltList_trans hlt hlt'⟩))

theorem dropWhile_head_false {p : Char → Bool} :
    ∀ {v : List Char} {c : Char} {r : List Char}, v.dropWhile p = c :: r → p c = false := by
  intro v
  induction v with
  | nil => intro c r h; simp [List.dropWhile] at h
  | cons x xs ih =>
    intro c r h
    by_cases hx : p x
    · rw [List.dropWhile_cons_of_pos hx] at h
      exact ih h
    · rw [List.dropWhile_cons_of_neg hx] at h
      cases h
      cases hpx : p x
      · rfl
      · exact absurd hpx hx

theorem splitSep_ne_nil (sep : Char) (v : List Char) : splitSep sep v ≠ [] := by
  cases v with
  | nil => simp [splitSep]
  | cons c rest =>
    rw [splitSep]
    by_cases hc : c = sep
    · simp [hc]
    · rw [if_neg hc]
      cases splitSep sep rest with
      | nil => simp
      | cons s ss => simp

/-- `splitSep` reads its input segment by segment: the first segment is the
longest `sep`-free prefix, and the remaining segments are the split of what
follows the first `sep`. -/
theorem splitSep_cases (sep : Char) :
    ∀ (v : List Char),
      (v.dropWhile (· ≠ sep) = [] → splitSep sep v = [v.takeWhile (· ≠ sep)]) ∧
      (∀ c r, v.dropWhile (· ≠ sep) = c :: r →
        splitSep sep v = v.takeWhile (· ≠ sep) :: splitSep sep r) := by
  intro v
  induction v with
  | nil =>
    constructor
    · intro _; rfl
    · intro c r h; cases h
  | cons x xs ih =>
    obtain ⟨ih1, ih2⟩ := ih
    by_cases hx : x = sep
    · have hpred : (fun y => decide (y ≠ sep)) x = false := by simp [hx]
      constructor
      · intro h
        rw [List.dropWhile_cons_of_neg (by simp [hpred])] at h
        cases h
      · intro c r h
        rw [List.dropWhile_cons_of_neg (by simp [hpred])] at h
        cases h
        rw [List.takeWhile_cons_of_neg (by simp [hpred])]
        rw [splitSep, if_pos hx]
    · have hpred : (x ≠ sep) := hx
      have hdrop : (x :: xs).dropWhile (· ≠ sep) = xs.dropWhile (· ≠ sep) :=
        List.dropWhile_cons_of_pos (by simp [hpred])
      have htake : (x :: xs).takeWhile (· ≠ sep) = x :: xs.takeWhile (· ≠ sep) :=
        List.takeWhile_cons_of_pos (by simp [hpred])
      constructor
      · intro h
        rw [hdrop] at h
        rw [htake, splitSep, if_neg hx, ih1 h]
      · intro c r h
        rw [hdrop] at h
        rw [htake, splitSep, if_neg hx, ih2 c r h]

theorem splitSep_nil_case {sep : Char} {v : List Char}
    (h : v.dropWhile (· ≠ sep) = []) : splitSep sep v = [v.takeWhile (· ≠ sep)] :=
  (splitSep_cases sep v).1 h

theorem splitSep_cons_case {sep : Char} {v : List Char} {c : Char} {r : List Char}
    (h : v.dropWhile (· ≠ sep) = c :: r) :
    splitSep sep v = v.takeWhile (· ≠ sep) :: splitSep sep r :=
  (splitSep_cases sep v).2 c r h

theorem joinDots_splitSep_aux :
    ∀ (n : Nat) (v : List Char), v.length ≤ n → joinDots (splitSep '.' v) = v := by
  intro n
  induction n with
  | zero =>
    intro v hv
    have hvnil : v = [] := List.length_eq_zero.mp (Nat.le_zero.mp hv)
    subst hvnil
    rw [splitSep_nil_case (by simp)]
    simp [joinDots]
  | succ n ih =>
    intro v hv
    cases h : v.dropWhile (· ≠ '.') with
    | nil =>
      rw [splitSep_nil_case h, joinDots]
      have := List.takeWhile_append_dropWhile (p := (· ≠ '.')) (l := v)
      rw [h, List.append_nil] at this
      exact this
    | cons c r =>
      have hc : c = '.' := by
        have := dropWhile_head_false h
        simpa using this
      have hlt : r.length < v.length := by
        have hle : (v.dropWhile (· ≠ '.')).length ≤ v.length :=
          (List.dropWhile_sublist _).length_le
        rw [h] at hle
        simp only [List.length_cons] at hle
        omega
      rw [splitSep_cons_case h]
      have hr : joinDots (splitSep '.' r) = r := ih r (by omega)
      have hne : splitSep '.' r ≠ [] := splitSep_ne_nil '.' r
      have hjoin : joinDots (v.takeWhile (· ≠ '.') :: splitSep '.' r) =
          v.takeWhile (· ≠ '.') ++ '.' :: joinDots (splitSep '.' r) := by
        cases hsp : splitSep '.' r with
        | nil => exact absurd hsp hne
        | cons s0 srest =>
          rw [joinDots]
          simp
      rw [hjoin, hr]
      have := List.takeWhile_append_dropWhile (p := (· ≠ '.')) (l := v)
      rw [h, hc] at this
      exact this

/-- Splitting at dots and rejoining with dots is the identity, so `splitSep`
is injective. -/
theorem joinDots_splitSep (v : List Char) : joinDots (splitSep '.' v) = v :=
  joinDots_splitSep_aux v.length v le_rfl

theorem splitSep_injective {v w : List Char}
    (h : splitSep '.' v = splitSep '.' w) : v = w := by
  have hv := joinDots_splitSep v
  have hw := joinDots_splitSep w
  rw [← hv, ← hw, h]

/-- The ident-list reading of the `comparePrerelease` loop: run out first and
be smaller, otherwise compare the first differing ident. -/
def identsCmp : List (List Char) → List (List Char) → Ordering
  | [], _ => .lt
  | _ :: _, [] => .gt
  | dx :: xs, dy :: ys => if dx = dy then identsCmp xs ys else identCmp dx dy

theorem identsCmp_ne_eq : ∀ (ls ms : List (List Char)), identsCmp ls ms ≠ .eq := by
  intro ls
  induction ls with
  | nil => intro ms; simp [identsCmp]
  | cons dx xs ih =>
    intro ms
    cases ms with
    | nil => simp [identsCmp]
    | cons dy ys =>
      by_cases h : dx = dy
      · simpa [identsCmp, h] using ih ys
      · simp only [identsCmp, if_neg h]
        intro hc
        exact h (identCmp_eq_iff.mp hc)

theorem identsCmp_swap : ∀ {ls ms : List (List Char)},
    ls ≠ ms → identsCmp ls ms = (identsCmp ms ls).swap := by
  intro ls
  induction ls with
  | nil =>
    intro ms hne
    cases ms with
    | nil => exact absurd rfl hne
    | cons dy ys => simp [identsCmp, Ordering.swap]
  | cons dx xs ih =>
    intro ms hne
    cases ms with
    | nil => simp [identsCmp, Ordering.swap]
    | cons dy ys =>
      by_cases h : dx = dy
      · have hxy : xs ≠ ys := by
          intro hh; exact hne (by rw [h, hh])
        have hyx : dy = dx := h.symm
        simp only [identsCmp, if_pos h, if_pos hyx]
        exact ih hxy
      · have h' : dy ≠ dx := fun hh => h hh.symm
        simp only [identsCmp, if_neg h, if_neg h']
        exact identCmp_swap dx dy

theorem identsCmp_lt_trans : ∀ {ls ms ns : List (List Char)},
    ls ≠ ms → ms ≠ ns → ls ≠ ns →
    identsCmp ls ms = .lt → identsCmp ms ns = .lt → identsCmp ls ns = .lt := by
  intro ls
  induction ls with
  | nil =>
    intro ms ns _ hmn hln _ h2
    cases ns with
    | nil =>
      cases ms with
      | nil => exact absurd rfl hmn
      | cons dy ys => simp [identsCmp] at h2
    | cons dz zs => simp [identsCmp]
  | cons dx xs ih =>
    intro ms ns hlm hmn hln h1 h2
    cases ms with
    | nil => simp [identsCmp] at h1
    | cons dy ys =>
      cases ns with
      | nil => simp [identsCmp] at h2
      | cons dz zs =>
        by_cases hxy : dx = dy
        · have hxys : xs ≠ ys := by
            intro hh; exact hlm (by rw [hxy, hh])
          rw [identsCmp, if_pos hxy] at h1
          by_cases hyz : dy = dz
          · have hyzs : ys ≠ zs := by
              intro hh; exact hmn (by rw [hyz, hh])
            rw [identsCmp, if_pos hyz] at h2
            have hxz : dx = dz := hxy.trans hyz
            have hxzs : xs ≠ zs := by
              intro hh; exact hln (by rw [hxz, hh])
            rw [identsCmp, if_pos hxz]
            exact ih hxys hyzs hxzs h1 h2
          · rw [identsCmp, if_neg hyz] at h2
            have hxz : dx ≠ dz := hxy ▸ hyz
            rw [identsCmp, if_neg hxz]
            exact hxy ▸ h2
        · rw [identsCmp, if_neg hxy] at h1
          by_cases hyz : dy = dz
          · have hxz : dx ≠ dz := fun hh => hxy (hh.trans hyz.symm)
            rw [identsCmp, if_neg hxz]
            exact hyz ▸ h1
          · rw [identsCmp, if_neg hyz] at h2
            have hlt := identCmp_lt_trans h1 h2
            have hxz : dx ≠ dz := by
              intro hh
              rw [hh, identCmp_refl] at hlt
              exact absurd hlt (by simp)
            rw [identsCmp, if_neg hxz]
            exact hlt

theorem identsCmp_nil_right {ls : List (List Char)} (h : ls ≠ []) :
    identsCmp ls [] = .gt := by
  cases ls with
  | nil => exact absurd rfl h
  | cons dx xs => rfl

/-- One unfolding of the loop when the first idents on both sides agree. -/
theorem comparePreLoop_step {c d : Char} {xs ys : List Char}
    (h : xs.takeWhile (· ≠ '.') = ys.takeWhile (· ≠ '.')) :
    comparePreLoop (c :: xs) (d :: ys) =
      comparePreLoop (xs.dropWhile (· ≠ '.')) (ys.dropWhile (· ≠ '.')) := by
  rw [comparePreLoop]
  exact if_pos h

/-- One unfolding of the loop when the first idents differ. -/
theorem comparePreLoop_stop {c d : Char} {xs ys : List Char}
    (h : xs.takeWhile (· ≠ '.') ≠ ys.takeWhile (· ≠ '.')) :
    comparePreLoop (c :: xs) (d :: ys) =
      identCmp (xs.takeWhile (· ≠ '.')) (ys.takeWhile (· ≠ '.')) := by
  rw [comparePreLoop]
  exact if_neg h

/-- The `comparePrerelease` loop computes exactly the ident-list comparison of
the two strings split at their dots (the leading separator char is skipped
blindly by the loop). -/
theorem comparePreLoop_eq_identsCmp_aux (n : Nat) :
    ∀ (xs ys : List Char) (c d : Char), xs.length ≤ n →
      comparePreLoop (c :: xs) (d :: ys) =
        identsCmp (splitSep '.' xs) (splitSep '.' ys) := by
  induction n using Nat.strong_induction_on with
  | _ n ih =>
    intro xs ys c d hlen
    by_cases hseg : xs.takeWhile (· ≠ '.') = ys.takeWhile (· ≠ '.')
    · rw [comparePreLoop_step hseg]
      cases hdx : xs.dropWhile (· ≠ '.') with
      | nil =>
        rw [splitSep_nil_case hdx]
        cases hdy : ys.dropWhile (· ≠ '.') with
        | nil =>
          rw [splitSep_nil_case hdy]
          rw [comparePreLoop]
          rw [identsCmp, if_pos hseg]
          rfl
        | cons ey ry =>
          rw [splitSep_cons_case hdy]
          rw [comparePreLoop]
          rw [identsCmp, if_pos hseg]
          rfl
      | cons ex rx =>
        rw [splitSep_cons_case hdx]
        cases hdy : ys.dropWhile (· ≠ '.') with
        | nil =>
          rw [splitSep_nil_case hdy]
          rw [comparePreLoop]
          rw [identsCmp, if_pos hseg]
          exact (identsCmp_nil_right (splitSep_ne_nil '.' rx)).symm
        | cons ey ry =>
          rw [splitSep_cons_case hdy]
          have hlt : rx.length < n := by
            have hle : (xs.dropWhile (· ≠ '.')).length ≤ xs.length :=
              (List.dropWhile_sublist _).length_le
            rw [hdx] at hle
            simp only [List.length_cons] at hle
            omega
          rw [ih rx.length hlt rx ry ex ey le_rfl]
          rw [identsCmp, if_pos hseg]
    · rw [comparePreLoop_stop hseg]
      cases hdx : xs.dropWhile (· ≠ '.') with
      | nil =>
        rw [splitSep_nil_case hdx]
        cases hdy : ys.dropWhile (· ≠ '.') with
        | nil => rw [splitSep_nil_case hdy, identsCmp, if_neg hseg]
        | cons ey ry => rw [splitSep_cons_case hdy, identsCmp, if_neg hseg]
      | cons ex rx =>
        rw [splitSep_cons_case hdx]
        cases hdy : ys.dropWhile (· ≠ '.') with
        | nil => rw [splitSep_nil_case hdy, identsCmp, if_neg hseg]
        | cons ey ry => rw [splitSep_cons_case hdy, identsCmp, if_neg hseg]

theorem comparePreLoop_eq_identsCmp (c d : Char) (xs ys : List Char) :
    comparePreLoop (c :: xs) (d :: ys) =
      identsCmp (splitSep '.' xs) (splitSep '.' ys) :=
  comparePreLoop_eq_identsCmp_aux xs.length xs ys c d le_rfl

/-- The shape of every prerelease component produced by `parse`: empty (no
prerelease) or the token starting with its `-`. -/
def PreDash (x : List Char) : Prop :=
  x = [] ∨ ∃ s, x = '-' :: s

theorem comparePrerelease_refl (x : List Char) : comparePrerelease x x = .eq := by
  simp [comparePrerelease]

theorem comparePrerelease_swap {x y : List Char}
    (hx : PreDash x) (hy : PreDash y) :
    comparePrerelease x y = (comparePrerelease y x).swap := by
  by_cases hxy : x = y
  · simp [hxy, comparePrerelease_refl, Ordering.swap]
  · have hyx : y ≠ x := fun h => hxy h.symm
    by_cases hxe : x = []
    · have hye : y ≠ [] := by
        intro h; exact hxy (h ▸ hxe)
      simp [comparePrerelease, hxy, hyx, hxe, hye, Ordering.swap]
    · by_cases hye : y = []
      · simp [comparePrerelease, hxy, hyx, hxe, hye, Ordering.swap]
      · simp only [comparePrerelease, if_neg hxy, if_neg hyx, if_neg hxe, if_neg hye]
        rcases hx with hx | ⟨xs, hx⟩
        · exact absurd hx hxe
        · rcases hy with hy | ⟨ys, hy⟩
          · exact absurd hy hye
          · subst hx; subst hy
            rw [comparePreLoop_eq_identsCmp, comparePreLoop_eq_identsCmp]
            have hne : splitSep '.' xs ≠ splitSep '.' ys := by
              intro h
              exact hxy (by rw [splitSep_injective h])
            exact identsCmp_swap hne

/-- On canonical prereleases a non-`gt` comparison is equality of the strings
or a strict `lt`. -/
theorem comparePrerelease_ne_gt {x y : List Char}
    (h : comparePrerelease x y ≠ .gt) :
    x = y ∨ comparePrerelease x y = .lt := by
  cases hc : comparePrerelease x y with
  | lt => exact Or.inr rfl
  | gt => exact absurd hc h
  | eq =>
    left
    by_contra hxy
    simp only [comparePrerelease, if_neg hxy] at hc
    by_cases hxe : x = []
    · simp [hxe] at hc
    · by_cases hye : y = []
      · simp [hxe, hye] at hc
      · simp only [if_neg hxe, if_neg hye] at hc
        cases x with
        | nil => exact hxe rfl
        | cons cx xs =>
          cases y with
          | nil => exact hye rfl
          | cons cy ys =>
            rw [comparePreLoop_eq_identsCmp] at hc
            exact identsCmp_ne_eq _ _ hc

theorem comparePrerelease_lt_trans {x y z : List Char}
    (hx : PreDash x) (hy : PreDash y) (hz : PreDash z)
    (h1 : comparePrerelease x y = .lt) (h2 : comparePrerelease y z = .lt) :
    comparePrerelease x z = .lt := by
  have hxy : x ≠ y := by
    intro h; rw [h, comparePrerelease_refl] at h1; exact absurd h1 (by simp)
  have hyz : y ≠ z := by
    intro h; rw [h, comparePrerelease_refl] at h2; exact absurd h2 (by simp)
  have hxz : x ≠ z := by
    intro h
    rw [comparePrerelease_swap hy hz] at h2
    rw [← h] at h2
    rw [h1] at h2
    exact absurd h2 (by simp [Ordering.swap])
  -- `x` cannot be the empty (release) prerelease: that compares `gt`.
  have hxe : x ≠ [] := by
    intro h
    rw [comparePrerelease, if_neg hxy, if_pos h] at h1
    exact absurd h1 (by simp)
  have hye : y ≠ [] := by
    intro h
    rw [comparePrerelease, if_neg hyz, if_pos h] at h2
    exact absurd h2 (by simp)
  by_cases hze : z = []
  · rw [comparePrerelease, if_neg hxz, if_neg hxe, if_pos hze]
  · rcases hx with hx | ⟨xs, hx⟩
    · exact absurd hx hxe
    · rcases hy with hy | ⟨ys, hy⟩
      · exact absurd hy hye
      · rcases hz with hz | ⟨zs, hz⟩
        · exact absurd hz hze
        · subst hx; subst hy; subst hz
          rw [comparePrerelease, if_neg hxy, if_neg hxe, if_neg hye,
            comparePreLoop_eq_identsCmp] at h1
          rw [comparePrerelease, if_neg hyz, if_neg hye, if_neg hze,
            comparePreLoop_eq_identsCmp] at h2
          rw [comparePrerelease, if_neg hxz, if_neg hxe, if_neg hze,
            comparePreLoop_eq_identsCmp]
          have hne1 : splitSep '.' xs ≠ splitSep '.' ys := by
            intro h; exact hxy (by rw [splitSep_injective h])
          have hne2 : splitSep '.' ys ≠ splitSep '.' zs := by
            intro h; exact hyz (by rw [splitSep_injective h])
          have hne3 : splitSep '.' xs ≠ splitSep '.' zs := by
            intro h; exact hxz (by rw [splitSep_injective h])
          exact identsCmp_lt_trans hne1 hne2 hne3 h1 h2

theorem then_ne_gt {o₁ o₂ : Ordering} :
    o₁.then o₂ ≠ .gt ↔ (o₁ = .lt ∨ (o₁ = .eq ∧ o₂ ≠ .gt)) := by
  cases o₁ <;> simp [Ordering.then]

theorem then_swap (o₁ o₂ : Ordering) : (o₁.then o₂).swap = o₁.swap.then o₂.swap := by
  cases o₁ <;> rfl

theorem parsedCompare_refl (p : SemParsed) : parsedCompare p p = .eq := by
  simp [parsedCompare, compareInt_refl, comparePrerelease_refl, Ordering.then]

theorem parsedCompare_swap {p q : SemParsed}
    (hp : PreDash p.prerelease) (hq : PreDash q.prerelease) :
    parsedCompare p q = (parsedCompare q p).swap := by
  simp only [parsedCompare]
  rw [compareInt_swap p.major, compareInt_swap p.minor, compareInt_swap p.patch,
    comparePrerelease_swap hp hq, then_swap, then_swap, then_swap]

theorem comparePrerelease_le_trans {x y z : List Char}
    (hx : PreDash x) (hy : PreDash y) (hz : PreDash z)
    (h1 : comparePrerelease x y ≠ .gt) (h2 : comparePrerelease y z ≠ .gt) :
    comparePrerelease x z ≠ .gt := by
  rcases comparePrerelease_ne_gt h1 with heq1 | hlt1
  · rw [heq1]; exact h2
  · rcases comparePrerelease_ne_gt h2 with heq2 | hlt2
    · rw [← heq2]; intro hc; rw [hlt1] at hc; cases hc
    · have := comparePrerelease_lt_trans hx hy hz hlt1 hlt2
      rw [this]; simp

theorem parsedCompare_le_trans {p q r : SemParsed}
    (hp : PreDash p.prerelease) (hq : PreDash q.prerelease) (hr : PreDash r.prerelease)
    (h1 : parsedCompare p q ≠ .gt) (h2 : parsedCompare q r ≠ .gt) :
    parsedCompare p r ≠ .gt := by
  simp only [parsedCompare] at h1 h2 ⊢
  apply then_ne_gt.mpr
  rcases then_ne_gt.mp h1 with hM1 | ⟨hM1, h1'⟩
  · rcases then_ne_gt.mp h2 with hM2 | ⟨hM2, h2'⟩
    · exact Or.inl (compareInt_lt_trans hM1 hM2)
    · have hqr : q.major = r.major := compareInt_eq_iff.mp hM2
      exact Or.inl (hqr ▸ hM1)
  · have hpq : p.major = q.major := compareInt_eq_iff.mp hM1
    rcases then_ne_gt.mp h2 with hM2 | ⟨hM2, h2'⟩
    · exact Or.inl (hpq ▸ hM2)
    · have hqr : q.major = r.major := compareInt_eq_iff.mp hM2
      refine Or.inr ⟨compareInt_eq_iff.mpr (hpq.trans hqr), ?_⟩
      apply then_ne_gt.mpr
      rcases then_ne_gt.mp h1' with hm1 | ⟨hm1, h1''⟩
      · rcases then_ne_gt.mp h2' with hm2 | ⟨hm2, h2''⟩
        · exact Or.inl (compareInt_lt_trans hm1 hm2)
        · have hqr' : q.minor = r.minor := compareInt_eq_iff.mp hm2
          exact Or.inl (hqr' ▸ hm1)
      · have hpq' : p.minor = q.minor := compareInt_eq_iff.mp hm1
        rcases then_ne_gt.mp h2' with hm2 | ⟨hm2, h2''⟩
        · exact Or.inl (hpq' ▸ hm2)
        · have hqr' : q.minor = r.minor := compareInt_eq_iff.mp hm2
          refine Or.inr ⟨compareInt_eq_iff.mpr (hpq'.trans hqr'), ?_⟩
          apply then_ne_gt.mpr
          rcases then_ne_gt.mp h1'' with hp1 | ⟨hp1, h1'''⟩
          · rcases then_ne_gt.mp h2'' with hp2 | ⟨hp2, h2'''⟩
            · exact Or.inl (compareInt_lt_trans hp1 hp2)
            · have hqr'' : q.patch = r.patch := compareInt_eq_iff.mp hp2
              exact Or.inl (hqr'' ▸ hp1)
          · have hpq'' : p.patch = q.patch := compareInt_eq_iff.mp hp1
            rcases then_ne_gt.mp h2'' with hp2 | ⟨hp2, h2'''⟩
            · exact Or.inl (hpq'' ▸ hp2)
            · have hqr'' : q.patch = r.patch := compareInt_eq_iff.mp hp2
              exact Or.inr ⟨compareInt_eq_iff.mpr (hpq''.trans hqr''),
                comparePrerelease_le_trans hp hq hr h1''' h2'''⟩

theorem preParse_preDash {v pre r : List Char}
    (h : preParse v = some (pre, r)) : PreDash pre := by
  unfold preParse at h
  split at h
  · split at h
    · cases h
    · cases h
      exact Or.inr ⟨_, rfl⟩
  · cases h
    exact Or.inl rfl

theorem parse_preDash : ∀ {v : List Char} {p : SemParsed},
    parse v = some p → PreDash p.prerelease := by
  intro v p h
  unfold parse at h
  split at h
  · split at h
    · cases h
    · split at h
      · cases h; exact Or.inl rfl
      · split at h
        · cases h
        · split at h
          · cases h; exact Or.inl rfl
          · split at h
            · cases h
            · split at h
              · cases h
              · rename_i pre r6 hpre
                split at h
                · cases h
                  exact preParse_preDash hpre
                · split at h
                  · cases h
                    exact preParse_preDash hpre
                  · cases h
                · cases h
          · cases h
      · cases h
  · cases h

theorem semverCompare_refl (v : List Char) : semverCompare v v = .eq := by
  unfold semverCompare
  cases h : parse v with
  | none => rfl
  | some p => exact parsedCompare_refl p

theorem semverCompare_swap (v w : List Char) :
    semverCompare v w = (semverCompare w v).swap := by
  unfold semverCompare
  cases hv : parse v with
  | none =>
    cases hw : parse w with
    | none => rfl
    | some q => rfl
  | some p =>
    cases hw : parse w with
    | none => rfl
    | some q => exact parsedCompare_swap (parse_preDash hv) (parse_preDash hw)

theorem semverCompare_le_trans {a b c : List Char}
    (h1 : semverCompare a b ≠ .gt) (h2 : semverCompare b c ≠ .gt) :
    semverCompare a c ≠ .gt := by
  unfold semverCompare at h1 h2 ⊢
  cases ha : parse a with
  | none =>
    cases hc : parse c with
    | none => simp
    | some r => simp
  | some p =>
    cases hb : parse b with
    | none =>
      rw [ha, hb] at h1
      exact absurd rfl h1
    | some q =>
      cases hc : parse c with
      | none =>
        rw [hb, hc] at h2
        exact absurd rfl h2
      | some r =>
        rw [ha, hb] at h1
        rw [hb, hc] at h2
        exact parsedCompare_le_trans (parse_preDash ha) (parse_preDash hb)
          (parse_preDash hc) h1 h2

/-- A valid version compares strictly above any invalid string. -/
theorem semverCompare_valid_invalid {a b : List Char}
    (ha : isValidChars a = true) (hb : isValidChars b = false) :
    semverCompare a b = .gt := by
  unfold semverCompare
  unfold isValidChars at ha hb
  cases hpa : parse a with
  | none => rw [hpa] at ha; cases ha
  | some p =>
    cases hpb : parse b with
    | none => rfl
    | some q => rw [hpb] at hb; cases hb

/-- `semverCompare` answers `eq` between a valid and an invalid string never;
validity is therefore invariant under `≠ gt`-maximality arguments. -/
theorem semverCompare_ne_gt_valid {a b : List Char}
    (ha : isValidChars a = true) (h : semverCompare a b ≠ .gt) :
    isValidChars b = true := by
  cases hb : isValidChars b with
  | false => exact absurd (semverCompare_valid_invalid ha hb) h
  | true => rfl

theorem Compare_refl (s : String) : Compare s s = .eq :=
  semverCompare_refl s.data

theorem Compare_swap (s t : String) : Compare s t = (Compare t s).swap :=
  semverCompare_swap s.data t.data

theorem Compare_le_trans {a b c : String}
    (h1 : Compare a b ≠ .gt) (h2 : Compare b c ≠ .gt) : Compare a c ≠ .gt :=
  semverCompare_le_trans h1 h2

theorem Compare_gt_to_lt {a b : String} (h : Compare a b = .gt) : Compare b a = .lt := by
  have := Compare_swap b a
  rw [h] at this
  exact this

theorem Compare_invalid_invalid {a b : String}
    (ha : IsValid a = false) (hb : IsValid b = false) : Compare a b = .eq := by
  unfold IsValid isValidChars at ha hb
  unfold Compare semverCompare
  cases hpa : parse a.data with
  | none =>
    cases hpb : parse b.data with
    | none => rfl
    | some q => rw [hpb] at hb; cases hb
  | some p => rw [hpa] at ha; cases ha

theorem Compare_valid_invalid {a b : String}
    (ha : IsValid a = true) (hb : IsValid b = false) : Compare a b = .gt :=
  semverCompare_valid_invalid ha hb

/-- The running element of the `maxVersion` fold is an element of the list or
the seed. -/
theorem maxVersion_fold_mem :
    ∀ (rest : List String) (m : String),
      rest.foldl (fun m x => if Compare x m = .gt then x else m) m = m ∨
      rest.foldl (fun m x => if Compare x m = .gt then x else m) m ∈ rest := by
  intro rest
  induction rest with
  | nil => intro m; exact Or.inl rfl
  | cons x xs ih =>
    intro m
    simp only [List.foldl_cons]
    rcases ih (if Compare x m = .gt then x else m) with h | h
    · rw [h]
      by_cases hc : Compare x m = .gt
      · rw [if_pos hc]; exact Or.inr (List.mem_cons_self x xs)
      · rw [if_neg hc]; exact Or.inl rfl
    · exact Or.inr (List.mem_cons_of_mem x h)

/-- The result of the `maxVersion` fold dominates the seed and every element,
in the `≠ gt` (less-or-equal) sense of `semver.Compare`. -/
theorem maxVersion_fold_ge :
    ∀ (rest : List String) (m : String),
      Compare m (rest.foldl (fun m x => if Compare x m = .gt then x else m) m) ≠ .gt ∧
      ∀ x ∈ rest,
        Compare x (rest.foldl (fun m x => if Compare x m = .gt then x else m) m) ≠ .gt := by
  intro rest
  induction rest with
  | nil =>
    intro m
    constructor
    · simp only [List.foldl_nil]
      rw [Compare_refl]; simp
    · intro x hx; cases hx
  | cons x xs ih =>
    intro m
    simp only [List.foldl_cons]
    obtain ⟨ih1, ih2⟩ := ih (if Compare x m = .gt then x else m)
    have hm : Compare m (if Compare x m = .gt then x else m) ≠ .gt := by
      by_cases hc : Compare x m = .gt
      · rw [if_pos hc, Compare_gt_to_lt hc]; simp
      · rw [if_neg hc, Compare_refl]; simp
    have hx : Compare x (if Compare x m = .gt then x else m) ≠ .gt := by
      by_cases hc : Compare x m = .gt
      · rw [if_pos hc, Compare_refl]; simp
      · rw [if_neg hc]; exact hc
    refine ⟨Compare_le_trans hm ih1, ?_⟩
    intro y hy
    rcases List.mem_cons.mp hy with hy | hy
    · subst hy; exact Compare_le_trans hx ih1
    · exact ih2 y hy

/-- When the seed and every element are invalid, the fold keeps the seed. -/
theorem maxVersion_fold_invalid :
    ∀ (rest : List String) (m : String), IsValid m = false →
      (∀ x ∈ rest, IsValid x = false) →
      rest.foldl (fun m x => if Compare x m = .gt then x else m) m = m := by
  intro rest
  induction rest with
  | nil => intro m _ _; rfl
  | cons x xs ih =>
    intro m hm hrest
    simp only [List.foldl_cons]
    have hx : IsValid x = false := hrest x (List.mem_cons_self x xs)
    have hc : Compare x m = .eq := Compare_invalid_invalid hx hm
    rw [hc]
    have : (if (Ordering.eq = Ordering.gt) then x else m) = m := by simp
    rw [this]
    exact ih m hm fun y hy => hrest y (List.mem_cons_of_mem x hy)

/-! ### cmd/upgrade.go, the concurrent upgrade-all -/

/-- One goroutine's lockfile update in `upgradeCommand` of cmd/upgrade.go:
`lockFile.PluginSpecs[plugin.Name] = plugin.Version.GitRef()`, performed
between `lockSync.Lock()` and `lockSync.Unlock()`.  The mapping is modelled
as a function from plugin name to optional spec. -/
def writePluginSpec (specs : String → Option String) (name spec : String) :
    String → Option String :=
  fun n => if n = name then some spec else specs n

/-- The mapping after a serialisation of the goroutines' writes.  Because
every write is guarded by the `lockSync` mutex, any concurrent execution of
the fan-out is equivalent to applying the per-plugin writes in some order;
`wg.Wait()` joins all goroutines before the single `lockFile.Save()`. -/
def applyWrites (specs : String → Option String) :
    List (String × String) → (String → Option String)
  | [] => specs
  | (name, spec) :: rest => applyWrites (writePluginSpec specs name spec) rest

theorem applyWrites_not_mem :
    ∀ (ws : List (String × String)) (specs : String → Option String) (name : String),
      name ∉ ws.map Prod.fst → applyWrites specs ws name = specs name := by
  intro ws
  induction ws with
  | nil => intro specs name _; rfl
  | cons kv rest ih =>
    intro specs name hnm
    obtain ⟨k, v⟩ := kv
    simp only [List.map_cons, List.mem_cons, not_or] at hnm
    obtain ⟨hnk, hnrest⟩ := hnm
    rw [applyWrites, ih _ _ hnrest, writePluginSpec, if_neg hnk]

theorem applyWrites_mem :
    ∀ (ws : List (String × String)) (specs : String → Option String) (n s : String),
      (n, s) ∈ ws → (ws.map Prod.fst).Nodup → applyWrites specs ws n = some s := by
  intro ws
  induction ws with
  | nil => intro specs n s h _; cases h
  | cons kv rest ih =>
    intro specs n s hmem hnd
    obtain ⟨k, v⟩ := kv
    rw [List.map_cons, List.nodup_cons] at hnd
    obtain ⟨hknotin, hndrest⟩ := hnd
    rcases List.mem_cons.mp hmem with heq | hmem'
    · cases heq
      rw [applyWrites, applyWrites_not_mem rest _ n hknotin, writePluginSpec, if_pos rfl]
    · rw [applyWrites]
      exact ih _ n s hmem' hndrest

/-! ### The claims -/

/-- C1: the claim says `Install(versionSpec)` checks out exactly the version a
non-empty `versionSpec` denotes and consults the resolver only when it is
empty.  The code (and its own doc comment notwithstanding) never reads
`versionSpec`: with the non-empty spec `v1.0.0` denoting the tag-based
version v1.0.0, and a remote whose tags are `v2.0.0` and `v1.0.0`, Install
checks out and stores the resolver's `v2.0.0`. -/
theorem claim_C1_install_ignores_spec :
    VersionFromSpec "v1.0.0" = .semantic ⟨"v1.0.0", ""⟩ ∧
    installVersion "v1.0.0" "v2.0.0\nv1.0.0" "main" "abc1234" = .semantic ⟨"v2.0.0", ""⟩ ∧
    (installVersion "v1.0.0" "v2.0.0\nv1.0.0" "main" "abc1234").GitRef ≠ "v1.0.0" := by
  decide

/-- C2 counterexample: a list whose only element is invalid yields that
element, not the empty string the claim demands. -/
theorem claim_C2_counterexample :
    (∀ x ∈ ["not a version"], IsValid x = false) ∧
    maxVersion ["not a version"] = "not a version" ∧
    maxVersion ["not a version"] ≠ "" := by
  decide

/-- C2 amended: `maxVersion` of the empty list is the empty string; of a
non-empty list it is an element that no element exceeds under
`semver.Compare`; when every element is invalid it is the *first* element
(which need not be empty); when some element is valid the result is a valid
version (hence the greatest valid one, by the maximality clause), and no
input is an error. -/
theorem claim_C2_amended (versions : List String) :
    (versions = [] → maxVersion versions = "") ∧
    (∀ v vs, versions = v :: vs →
      maxVersion versions ∈ versions ∧
      (∀ x ∈ versions, Compare x (maxVersion versions) ≠ .gt) ∧
      ((∀ x ∈ versions, IsValid x = false) → maxVersion versions = v) ∧
      ((∃ x ∈ versions, IsValid x = true) → IsValid (maxVersion versions) = true)) := by
  constructor
  · intro h; subst h; rfl
  · intro v vs h
    subst h
    have hfold : maxVersion (v :: vs) =
        vs.foldl (fun m x => if Compare x m = .gt then x else m) v := rfl
    obtain ⟨hseed, helts⟩ := maxVersion_fold_ge vs v
    refine ⟨?_, ?_, ?_, ?_⟩
    · rw [hfold]
      rcases maxVersion_fold_mem vs v with h | h
      · rw [h]; exact List.mem_cons_self v vs
      · exact List.mem_cons_of_mem v h
    · intro x hx
      rw [hfold]
      rcases List.mem_cons.mp hx with hx | hx
      · subst hx; exact hseed
      · exact helts x hx
    · intro hall
      rw [hfold]
      exact maxVersion_fold_invalid vs v (hall v (List.mem_cons_self v vs))
        fun x hx => hall x (List.mem_cons_of_mem v hx)
    · rintro ⟨x, hx, hvx⟩
      rw [hfold]
      rcases List.mem_cons.mp hx with hx' | hx'
      · subst hx'; exact semverCompare_ne_gt_valid hvx hseed
      · exact semverCompare_ne_gt_valid hvx (helts x hx')

/-- C2 witness: on the spec's own example list the amended theorem yields an
element of the list that is a valid version. -/
theorem claim_C2_amended_witness :
    maxVersion ["v1", "v0.3", "v1.2.5", "   "] ∈ (["v1", "v0.3", "v1.2.5", "   "] : List String) ∧
    IsValid (maxVersion ["v1", "v0.3", "v1.2.5", "   "]) = true :=
  ⟨((claim_C2_amended _).2 "v1" _ rfl).1,
   ((claim_C2_amended _).2 "v1" _ rfl).2.2.2 ⟨"v1.2.5", by decide, by decide⟩⟩

/-- C3 counterexample: a tag-based version currently at `v2.0.0` whose remote
only lists `v1.0.0` gets `latestVersion = "v1.0.0"` recorded by `Check` —
non-empty and strictly *below* `currentVersion`, violating the claimed
invariant (the conditional re-assignment in the source is dead code). -/
theorem claim_C3_counterexample :
    SemanticVersion.Check ⟨"v2.0.0", ""⟩ "v1.0.0" = .ok ⟨"v2.0.0", "v1.0.0"⟩ ∧
    ("v1.0.0" : String) ≠ "" ∧
    Compare "v1.0.0" "v2.0.0" = .lt := by
  decide

/-- C3 amended: `Check` fails with the no-versions error exactly when the
maximum over the fetched tag lines is empty; otherwise it stores that maximum
as `latestVersion` unconditionally — possibly strictly below
`currentVersion` — and it never changes `currentVersion`. -/
theorem claim_C3_amended (sv : SemanticVersion) (tagOutput : String) :
    (SemanticVersion.Check sv tagOutput = .errNoVersions ↔
      maxVersion (splitLines tagOutput) = "") ∧
    (maxVersion (splitLines tagOutput) ≠ "" →
      SemanticVersion.Check sv tagOutput =
        .ok ⟨sv.currentVersion, maxVersion (splitLines tagOutput)⟩) := by
  unfold SemanticVersion.Check
  by_cases h : maxVersion (splitLines tagOutput) = ""
  · simp [h]
  · simp [h]

/-- C3 witness: with one fetched tag `v1.2.0`, `Check` keeps the current
version and records `v1.2.0` as latest. -/
theorem claim_C3_amended_witness :
    SemanticVersion.Check ⟨"v1.0.0", ""⟩ "v1.2.0" = .ok ⟨"v1.0.0", "v1.2.0"⟩ := by
  have h := (claim_C3_amended ⟨"v1.0.0", ""⟩ "v1.2.0").2 (by decide)
  have hm : maxVersion (splitLines "v1.2.0") = "v1.2.0" := by decide
  rw [hm] at h
  exact h

/-- C4 counterexample: `"1.2.5"` is classified Tag-based (valid after the `v`
prefix), but `GitRef` renders the normalised `"v1.2.5"`, not the original
spec string — the round trip is not a fixed point for every Tag-based
classification. -/
theorem claim_C4_counterexample :
    VersionFromSpec "1.2.5" = .semantic ⟨"v1.2.5", ""⟩ ∧
    (VersionFromSpec "1.2.5").GitRef ≠ "1.2.5" := by
  decide

/-- C4 amended: the spec-to-Version-to-spec round trip is a fixed point
exactly for spec strings that are valid semantic versions as given; a string
valid only after prepending `v` renders back with the prefix attached; a
Branch-based classification renders back the branch name unchanged. -/
theorem claim_C4_amended (spec : String) :
    (IsValid spec = true → (VersionFromSpec spec).GitRef = spec) ∧
    (IsValid spec = false → IsValid ("v" ++ spec) = true →
      (VersionFromSpec spec).GitRef = "v" ++ spec) ∧
    (IsValid spec = false → IsValid ("v" ++ spec) = false →
      VersionFromSpec spec = .git ⟨"", spec, ""⟩ ∧ (VersionFromSpec spec).GitRef = spec) := by
  refine ⟨?_, ?_, ?_⟩
  · intro h1
    unfold VersionFromSpec
    simp [h1, Version.GitRef]
  · intro h1 h2
    unfold VersionFromSpec
    simp [h1, h2, Version.GitRef]
  · intro h1 h2
    unfold VersionFromSpec
    simp [h1, h2, Version.GitRef]

/-- C4 witness: the normalising branch of the amended theorem at `"1.2.5"`. -/
theorem claim_C4_amended_witness :
    (VersionFromSpec "1.2.5").GitRef = "v1.2.5" :=
  (claim_C4_amended "1.2.5").2.1 (by decide) (by decide)

/-- C5: `GitVersion.HasUpgrade` reports an upgrade exactly when both hashes
are non-empty and differ, and the reported Version carries the old
`latestHash` as its `currentHash` with the branch preserved; otherwise there
is no value. -/
theorem claim_C5_git_hasupgrade (gv : GitVersion) :
    (gv.HasUpgrade = some (.git ⟨gv.latestHash, gv.branch, ""⟩) ↔
      gv.currentHash ≠ "" ∧ gv.latestHash ≠ "" ∧ gv.currentHash ≠ gv.latestHash) ∧
    (gv.HasUpgrade = none ↔
      ¬(gv.currentHash ≠ "" ∧ gv.latestHash ≠ "" ∧ gv.currentHash ≠ gv.latestHash)) ∧
    (∀ v, gv.HasUpgrade = some v → v = .git ⟨gv.latestHash, gv.branch, ""⟩) := by
  unfold GitVersion.HasUpgrade
  by_cases h : gv.currentHash ≠ "" ∧ gv.latestHash ≠ "" ∧ gv.currentHash ≠ gv.latestHash
  · rw [if_pos h]
    refine ⟨by simp [h], by simp [h], ?_⟩
    intro v hv
    cases hv
    rfl
  · rw [if_neg h]
    exact ⟨by simp [h], by simp [h], fun v hv => by cases hv⟩

/-- C5 witness: distinct non-empty hashes produce the forwarded Version. -/
theorem claim_C5_witness :
    GitVersion.HasUpgrade ⟨"aaa1111", "main", "bbb2222"⟩ =
      some (.git ⟨"bbb2222", "main", ""⟩) :=
  (claim_C5_git_hasupgrade ⟨"aaa1111", "main", "bbb2222"⟩).1.mpr (by decide)

/-- C6: `SemanticVersion.HasUpgrade` returns the fresh Version carrying
`latestVersion` as current exactly when `latestVersion` is non-empty and
strictly greater than `currentVersion` under `semver.Compare`; otherwise no
value.  The receiver is a pure input of this function, never mutated. -/
theorem claim_C6_semantic_hasupgrade (sv : SemanticVersion) :
    (sv.HasUpgrade = some (.semantic ⟨sv.latestVersion, ""⟩) ↔
      sv.latestVersion ≠ "" ∧ Compare sv.latestVersion sv.currentVersion = .gt) ∧
    (sv.HasUpgrade = none ↔
      ¬(sv.latestVersion ≠ "" ∧ Compare sv.latestVersion sv.currentVersion = .gt)) ∧
    (∀ v, sv.HasUpgrade = some v → v = .semantic ⟨sv.latestVersion, ""⟩) := by
  unfold SemanticVersion.HasUpgrade
  by_cases h : sv.latestVersion ≠ "" ∧ Compare sv.latestVersion sv.currentVersion = .gt
  · rw [if_pos h]
    refine ⟨by simp [h], by simp [h], ?_⟩
    intro v hv
    cases hv
    rfl
  · rw [if_neg h]
    exact ⟨by simp [h], by simp [h], fun v hv => by cases hv⟩

/-- C6 witness: a recorded strictly-greater latest version is reported. -/
theorem claim_C6_witness :
    SemanticVersion.HasUpgrade ⟨"v1.0.0", "v1.2.0"⟩ =
      some (.semantic ⟨"v1.2.0", ""⟩) :=
  (claim_C6_semantic_hasupgrade ⟨"v1.0.0", "v1.2.0"⟩).1.mpr (by decide)

/-- C7: the claim says a stat error other than not-exist propagates unchanged
from `CheckInstalled`.  The code instead panics there (`fsInfo` is nil when
`os.Stat` fails, and `!fsInfo.IsDir()` is still evaluated), so the claimed
propagation — the function's own unreachable `return err` — never happens;
the not-exist branch does return `ErrPluginNotInstalled` as claimed. -/
theorem claim_C7_checkinstalled :
    CheckInstalled (.statError "permission denied") = .panicked ∧
    CheckInstalled (.statError "permission denied") ≠ .errOther "permission denied" ∧
    CheckInstalled .notExist = .errNotInstalled ∧
    CheckInstalled (.found false) = .errNotInstalled ∧
    CheckInstalled (.found true) = .ok := by
  decide

/-- C8: in the upgrade-all fan-out each task writes only its own plugin's key
under the mutex, and `Save` runs once after the `wg.Wait()` barrier.  The
mutex makes every concurrent execution equivalent to some serialisation
(permutation) of the atomic per-plugin writes; for any such serialisation,
the mapping that the single final `Save` persists still holds every plugin's
own update: no update is lost. -/
theorem claim_C8_no_lost_updates (initial : String → Option String)
    (updates order : List (String × String))
    (hperm : order.Perm updates) (hnodup : (updates.map Prod.fst).Nodup) :
    ∀ u ∈ updates, applyWrites initial order u.1 = some u.2 := by
  intro u hu
  obtain ⟨n, s⟩ := u
  have hmem : (n, s) ∈ order := hperm.mem_iff.mpr hu
  have hnd : (order.map Prod.fst).Nodup := ((hperm.map Prod.fst).nodup_iff).mpr hnodup
  exact applyWrites_mem order initial n s hmem hnd

/-- C8 witness: two plugins written in the opposite order both keep their
updates. -/
theorem claim_C8_witness :
    applyWrites (fun _ => none) [("o/b", "v2.0.0"), ("o/a", "v1.0.0")] "o/a" =
      some "v1.0.0" :=
  claim_C8_no_lost_updates (fun _ => none)
    [("o/a", "v1.0.0"), ("o/b", "v2.0.0")] [("o/b", "v2.0.0"), ("o/a", "v1.0.0")]
    (List.Perm.swap ("o/a", "v1.0.0") ("o/b", "v2.0.0") [])
    (by decide) ("o/a", "v1.0.0") (by decide)

/-- C9: a spec string that is invalid even with the `v` prefix — the empty
string included — always becomes a Branch-based Version whose branch is the
spec itself, rendered back unchanged by `GitRef`; no error is possible. -/
theorem claim_C9_branch_fallback (spec : String) (h1 : IsValid spec = false)
    (h2 : IsValid ("v" ++ spec) = false) :
    VersionFromSpec spec = .git ⟨"", spec, ""⟩ ∧ (VersionFromSpec spec).GitRef = spec := by
  unfold VersionFromSpec
  simp [h1, h2, Version.GitRef]

/-- C9 witness: the empty spec string in particular yields a Branch-based
Version with the empty branch name. -/
theorem claim_C9_witness :
    IsValid "" = false ∧ IsValid "v" = false ∧
    VersionFromSpec "" = .git ⟨"", "", ""⟩ ∧ (VersionFromSpec "").GitRef = "" :=
  ⟨by decide, by decide,
   (claim_C9_branch_fallback "" (by decide) (by decide)).1,
   (claim_C9_branch_fallback "" (by decide) (by decide)).2⟩

/-- C10: over *all* tag-based states — also those where `Check` recorded a
`latestVersion` strictly below `currentVersion` — any replacement Version
that `HasUpgrade` returns has a current version that is not strictly lower
than the existing one: no downgrade is ever offered. -/
theorem claim_C10_no_downgrade (sv sv' : SemanticVersion)
    (h : sv.HasUpgrade = some (.semantic sv')) :
    Compare sv'.currentVersion sv.currentVersion ≠ .lt := by
  unfold SemanticVersion.HasUpgrade at h
  by_cases hc : sv.latestVersion ≠ "" ∧ Compare sv.latestVersion sv.currentVersion = .gt
  · rw [if_pos hc] at h
    cases h
    simpa using hc.2 ▸ (by simp : (Ordering.gt ≠ Ordering.lt))
  · rw [if_neg hc] at h
    cases h

/-- C10 witness: from current `v1.0.0` with latest `v1.2.0`, the offered
target `v1.2.0` is not a downgrade. -/
theorem claim_C10_witness :
    Compare "v1.2.0" "v1.0.0" ≠ .lt :=
  claim_C10_no_downgrade ⟨"v1.0.0", "v1.2.0"⟩ ⟨"v1.2.0", ""⟩ (by decide)

end Tim
